import Mathlib

/-!
Verification of the m3 block-codec core: shallow embeddings of the
bit-oriented output stream (`src/encoding/tsz/ostream.go`), the block
file-set reader and writer (`fs` package), and the protobuf diff iterator
(`proto` package), together with theorems settling the specification's
claims about them.

Machine integers are modelled as `Nat`/`Int` with explicit `% 256` /
`% 2^64` where byte or 64-bit wrap-around matters.
-/

namespace M3Spec

/-! ## Bit-oriented output stream (src/encoding/tsz/ostream.go)

Bytes are `Nat` values; every write keeps them below 256 via `% 256`,
mirroring Go `byte` arithmetic. -/

/-- Embedding of the Go `ostream` struct: `rawBuffer` is the raw byte
buffer and `pos` is how many bits have been used in the last byte. -/
structure ostream where
  rawBuffer : List Nat
  pos : Nat
deriving DecidableEq

/-- Embedding of `newOStream`. Go branches on `cap(bytes) == 0`; the
slice capacity is passed explicitly as `c` (in Go, `len(bytes) ≤ cap(bytes)`
always holds). When the capacity is zero a fresh empty buffer is
allocated with `pos = 0`; otherwise the bytes are kept and `pos` is set
to 8, indicating that the last byte is fully used. -/
def newOStream (bytes : List Nat) (c : Nat) : ostream :=
  if c = 0 then { rawBuffer := [], pos := 0 }
  else { rawBuffer := bytes, pos := 8 }

/-- Embedding of `ostream.len`. -/
def ostream.len (os : ostream) : Nat := os.rawBuffer.length

/-- Embedding of `ostream.empty`: `os.len() == 0 && os.pos == 0`. -/
def ostream.empty (os : ostream) : Bool := os.len == 0 && os.pos == 0

/-- Embedding of `ostream.lastIndex`: `os.len() - 1` (Go `int`; only
used by `fillUnused`, which is only reached with a non-empty buffer). -/
def ostream.lastIndex (os : ostream) : Nat := os.len - 1

/-- Embedding of `ostream.hasUnusedBits`: `os.pos > 0 && os.pos < 8`. -/
def ostream.hasUnusedBits (os : ostream) : Bool := 0 < os.pos && os.pos < 8

/-- Embedding of `ostream.grow`: appends the last byte of `v` to
`rawBuffer` and sets `pos` to `np`. -/
def ostream.grow (os : ostream) (v np : Nat) : ostream :=
  { rawBuffer := os.rawBuffer ++ [v % 256], pos := np }

/-- Embedding of `ostream.fillUnused`:
`os.rawBuffer[os.lastIndex()] |= v << uint(os.pos)` in Go byte
arithmetic. -/
def ostream.fillUnused (os : ostream) (v : Nat) : ostream :=
  { os with
    rawBuffer := os.rawBuffer.set os.lastIndex
      ((os.rawBuffer.getD os.lastIndex 0) ||| ((v <<< os.pos) % 256)) }

/-- Embedding of `ostream.WriteBit`. -/
def ostream.WriteBit (os : ostream) (v : Nat) : ostream :=
  if !os.hasUnusedBits then os.grow v 1
  else { os.fillUnused v with pos := os.pos + 1 }

/-- Embedding of `ostream.WriteByte`. On a partially filled last byte it
ORs the low `8 - pos` bits of `v` into it and appends the remaining high
bits as a new byte, keeping `pos`. -/
def ostream.WriteByte (os : ostream) (v : Nat) : ostream :=
  if !os.hasUnusedBits then os.grow v 8
  else (os.fillUnused v).grow (v >>> (8 - os.pos)) os.pos

/-- Embedding of the first loop of `ostream.WriteBits`: while
`numBits >= 8`, write the low byte of `v` (Go's `byte(v)` cast is the
`% 256`), shift `v` right by 8 and decrease `numBits` by 8. Returns the
stream together with the remaining `v` and `numBits`. -/
def writeBitsByteLoop (os : ostream) (v numBits : Nat) : ostream × Nat × Nat :=
  if h : 8 ≤ numBits then
    writeBitsByteLoop (os.WriteByte (v % 256)) (v >>> 8) (numBits - 8)
  else (os, v, numBits)
termination_by numBits
decreasing_by omega

/-- Embedding of the second loop of `ostream.WriteBits`: while
`numBits > 0`, write the low bit of `v` and shift `v` right by one. -/
def writeBitsBitLoop : ostream → Nat → Nat → ostream
  | os, _, 0 => os
  | os, v, numBits + 1 => writeBitsBitLoop (os.WriteBit (v &&& 1)) (v >>> 1) numBits

/-- Embedding of `ostream.WriteBits`: zero bits is a no-op, more than 64
bits is clamped to 64, then whole bytes are emitted lowest-byte-first
and the remaining bits lowest-bit-first. -/
def ostream.WriteBits (os : ostream) (v numBits : Nat) : ostream :=
  if numBits = 0 then os
  else
    let nb := if 64 < numBits then 64 else numBits
    let r := writeBitsByteLoop os v nb
    writeBitsBitLoop r.1 r.2.1 r.2.2

/-- Total number of bits held by the stream: all bytes but the last are
full, and the last byte holds `pos` bits. -/
def ostream.bitLen (os : ostream) : Nat :=
  if os.rawBuffer = [] then 0 else 8 * (os.rawBuffer.length - 1) + os.pos

/-- States reachable through `newOStream`, `Reset` and the write
operations: `pos ≤ 8`, an empty buffer has `pos` 0 (fresh) or 8
(adopted empty slice with capacity), and a non-empty buffer has at
least one bit in its last byte. -/
def ostream.wfState (os : ostream) : Prop :=
  os.pos ≤ 8 ∧ (os.rawBuffer = [] → os.pos = 0 ∨ os.pos = 8) ∧
    (os.rawBuffer ≠ [] → 1 ≤ os.pos)

theorem wfState_bitLen_WriteBit (os : ostream) (v : Nat) (h : os.wfState) :
    (os.WriteBit v).wfState ∧ (os.WriteBit v).bitLen = os.bitLen + 1 := by
  obtain ⟨h1, h2, h3⟩ := h
  by_cases hu : os.hasUnusedBits
  · have hpos : 1 ≤ os.pos ∧ os.pos < 8 := by
      simpa [ostream.hasUnusedBits] using hu
    have hne : os.rawBuffer ≠ [] := by
      intro he
      rcases h2 he with h0 | h8 <;> omega
    have hlen : 1 ≤ os.rawBuffer.length := List.length_pos.mpr hne
    constructor
    · refine ⟨?_, ?_, ?_⟩
      · simp only [ostream.WriteBit, hu]
        simp [ostream.fillUnused]
        omega
      · intro he
        simp [ostream.WriteBit, hu, ostream.fillUnused] at he
        exact absurd he hne
      · intro _
        simp [ostream.WriteBit, hu, ostream.fillUnused]
    · simp [ostream.WriteBit, hu, ostream.fillUnused, ostream.bitLen, hne]
      omega
  · have hpos : os.pos = 0 ∨ 8 ≤ os.pos := by
      simp [ostream.hasUnusedBits] at hu
      omega
    constructor
    · refine ⟨?_, ?_, ?_⟩
      · simp [ostream.WriteBit, hu, ostream.grow]
      · intro he
        simp [ostream.WriteBit, hu, ostream.grow] at he
      · intro _
        simp [ostream.WriteBit, hu, ostream.grow]
    · by_cases hmt : os.rawBuffer = []
      · simp [ostream.WriteBit, hu, ostream.grow, ostream.bitLen, hmt]
      · have hlen : 1 ≤ os.rawBuffer.length := List.length_pos.mpr hmt
        have h8 : os.pos = 8 := by
          rcases hpos with h0 | hge
          · exact absurd h0 (by have := h3 hmt; omega)
          · omega
        simp [ostream.WriteBit, hu, ostream.grow, ostream.bitLen, hmt]
        omega

theorem wfState_bitLen_WriteByte (os : ostream) (v : Nat) (h : os.wfState) :
    (os.WriteByte v).wfState ∧ (os.WriteByte v).bitLen = os.bitLen + 8 := by
  obtain ⟨h1, h2, h3⟩ := h
  by_cases hu : os.hasUnusedBits
  · have hpos : 1 ≤ os.pos ∧ os.pos < 8 := by
      simpa [ostream.hasUnusedBits] using hu
    have hne : os.rawBuffer ≠ [] := by
      intro he
      rcases h2 he with h0 | h8 <;> omega
    have hlen : 1 ≤ os.rawBuffer.length := List.length_pos.mpr hne
    constructor
    · refine ⟨?_, ?_, ?_⟩
      · simp [ostream.WriteByte, hu, ostream.fillUnused, ostream.grow]
        omega
      · intro he
        simp [ostream.WriteByte, hu, ostream.fillUnused, ostream.grow] at he
      · intro _
        simp [ostream.WriteByte, hu, ostream.fillUnused, ostream.grow]
        omega
    · simp [ostream.WriteByte, hu, ostream.fillUnused, ostream.grow, ostream.bitLen, hne]
      omega
  · have hpos : os.pos = 0 ∨ 8 ≤ os.pos := by
      simp [ostream.hasUnusedBits] at hu
      omega
    constructor
    · refine ⟨?_, ?_, ?_⟩
      · simp [ostream.WriteByte, hu, ostream.grow]
      · intro he
        simp [ostream.WriteByte, hu, ostream.grow] at he
      · intro _
        simp [ostream.WriteByte, hu, ostream.grow]
    · by_cases hmt : os.rawBuffer = []
      · simp [ostream.WriteByte, hu, ostream.grow, ostream.bitLen, hmt]
      · have hlen : 1 ≤ os.rawBuffer.length := List.length_pos.mpr hmt
        have h8 : os.pos = 8 := by
          rcases hpos with h0 | hge
          · exact absurd h0 (by have := h3 hmt; omega)
          · omega
        simp [ostream.WriteByte, hu, ostream.grow, ostream.bitLen, hmt]
        omega

theorem writeBitsByteLoop_spec :
    ∀ numBits os v, os.wfState →
      (writeBitsByteLoop os v numBits).1.wfState ∧
      (writeBitsByteLoop os v numBits).1.bitLen = os.bitLen + 8 * (numBits / 8) ∧
      (writeBitsByteLoop os v numBits).2.2 = numBits % 8 := by
  intro numBits
  induction numBits using Nat.strong_induction_on with
  | _ n ih =>
    intro os v hwf
    rw [writeBitsByteLoop]
    by_cases h : 8 ≤ n
    · simp only [dif_pos h]
      obtain ⟨hwf', hbits⟩ := wfState_bitLen_WriteByte os (v % 256) hwf
      obtain ⟨ih1, ih2, ih3⟩ := ih (n - 8) (by omega) (os.WriteByte (v % 256)) (v >>> 8) hwf'
      refine ⟨ih1, ?_, ?_⟩
      · rw [ih2, hbits]
        omega
      · rw [ih3]
        omega
    · simp only [dif_neg h]
      refine ⟨hwf, ?_, ?_⟩ <;> omega

theorem writeBitsBitLoop_spec :
    ∀ numBits os v, os.wfState →
      (writeBitsBitLoop os v numBits).wfState ∧
      (writeBitsBitLoop os v numBits).bitLen = os.bitLen + numBits := by
  intro numBits
  induction numBits with
  | zero => intro os v hwf; exact ⟨hwf, rfl⟩
  | succ n ih =>
    intro os v hwf
    obtain ⟨hwf', hbits⟩ := wfState_bitLen_WriteBit os (v &&& 1) hwf
    obtain ⟨ih1, ih2⟩ := ih (os.WriteBit (v &&& 1)) (v >>> 1) hwf'
    refine ⟨ih1, ?_⟩
    rw [show writeBitsBitLoop os v (n + 1)
        = writeBitsBitLoop (os.WriteBit (v &&& 1)) (v >>> 1) n from rfl, ih2, hbits]
    omega

theorem WriteBits_unfold (os : ostream) (v n : Nat) (h0 : n ≠ 0) (h64 : ¬64 < n) :
    os.WriteBits v n
      = writeBitsBitLoop (writeBitsByteLoop os v n).1 (writeBitsByteLoop os v n).2.1
          (writeBitsByteLoop os v n).2.2 := by
  simp only [ostream.WriteBits, if_neg h0, if_neg h64]

theorem writeBitsByteLoop_step (os : ostream) (v n : Nat) (h : 8 ≤ n) :
    writeBitsByteLoop os v n
      = writeBitsByteLoop (os.WriteByte (v % 256)) (v >>> 8) (n - 8) := by
  rw [writeBitsByteLoop, dif_pos h]

theorem writeBitsByteLoop_stop (os : ostream) (v n : Nat) (h : ¬8 ≤ n) :
    writeBitsByteLoop os v n = (os, v, n) := by
  rw [writeBitsByteLoop, dif_neg h]

/-- C10: `WriteBits(v, 0)` leaves the stream unchanged; `WriteBits(v, n)`
for `n > 64` behaves exactly as `WriteBits(v, 64)`; for `8 ≤ n ≤ 64` it
first emits the lowest byte of `v` via `WriteByte` and recurses on the
rest, and for `1 ≤ n ≤ 7` it emits the lowest bit of `v` via `WriteBit`
and recurses, so on every well-formed stream the total number of bits
grows by exactly `min n 64`. -/
theorem ostream_WriteBits_spec (os : ostream) (v numBits : Nat) :
    os.WriteBits v 0 = os ∧
    (64 < numBits → os.WriteBits v numBits = os.WriteBits v 64) ∧
    (8 ≤ numBits → numBits ≤ 64 →
      os.WriteBits v numBits = (os.WriteByte (v % 256)).WriteBits (v >>> 8) (numBits - 8)) ∧
    (1 ≤ numBits → numBits ≤ 7 →
      os.WriteBits v numBits = (os.WriteBit (v &&& 1)).WriteBits (v >>> 1) (numBits - 1)) ∧
    (os.wfState → (os.WriteBits v numBits).bitLen = os.bitLen + min numBits 64) := by
  refine ⟨by simp [ostream.WriteBits], ?_, ?_, ?_, ?_⟩
  · intro h64
    simp only [ostream.WriteBits, if_neg (by omega : ¬numBits = 0),
      if_neg (by omega : ¬(64:Nat) = 0), if_pos h64, if_neg (by omega : ¬(64:Nat) < 64)]
  · intro h8 h64
    rw [WriteBits_unfold os v numBits (by omega) (by omega),
      writeBitsByteLoop_step os v numBits h8]
    by_cases hz : numBits - 8 = 0
    · rw [hz, writeBitsByteLoop_stop _ _ 0 (by omega)]
      rfl
    · rw [WriteBits_unfold (os.WriteByte (v % 256)) (v >>> 8) (numBits - 8) hz
        (by omega)]
  · intro h1 h7
    rw [WriteBits_unfold os v numBits (by omega) (by omega),
      writeBitsByteLoop_stop os v numBits (by omega)]
    obtain ⟨m, rfl⟩ : ∃ m, numBits = m + 1 := ⟨numBits - 1, by omega⟩
    show writeBitsBitLoop (os.WriteBit (v &&& 1)) (v >>> 1) m
      = (os.WriteBit (v &&& 1)).WriteBits (v >>> 1) (m + 1 - 1)
    rw [Nat.add_sub_cancel]
    by_cases hz : m = 0
    · subst hz
      rfl
    · rw [WriteBits_unfold (os.WriteBit (v &&& 1)) (v >>> 1) m hz (by omega),
        writeBitsByteLoop_stop (os.WriteBit (v &&& 1)) (v >>> 1) m (by omega)]
  · intro hwf
    by_cases hz : numBits = 0
    · subst hz
      simp [ostream.WriteBits]
    · simp only [ostream.WriteBits, if_neg hz]
      by_cases h64 : 64 < numBits
      · simp only [if_pos h64]
        obtain ⟨hw1, hb1, hr1⟩ := writeBitsByteLoop_spec 64 os v hwf
        obtain ⟨_, hb2⟩ := writeBitsBitLoop_spec (writeBitsByteLoop os v 64).2.2
          (writeBitsByteLoop os v 64).1 (writeBitsByteLoop os v 64).2.1 hw1
        rw [hb2, hb1, hr1]
        omega
      · simp only [if_neg h64]
        obtain ⟨hw1, hb1, hr1⟩ := writeBitsByteLoop_spec numBits os v hwf
        obtain ⟨_, hb2⟩ := writeBitsBitLoop_spec (writeBitsByteLoop os v numBits).2.2
          (writeBitsByteLoop os v numBits).1 (writeBitsByteLoop os v numBits).2.1 hw1
        rw [hb2, hb1, hr1]
        omega

/-- Witness for C10 at a concrete stream and bit count. -/
theorem ostream_WriteBits_spec_witness :
    ((⟨[], 0⟩ : ostream).WriteBits 5 3).bitLen = (⟨[], 0⟩ : ostream).bitLen + min 3 64 :=
  (ostream_WriteBits_spec ⟨[], 0⟩ 5 3).2.2.2.2
    ⟨by decide, fun _ => Or.inl rfl, fun h => absurd rfl h⟩

/-- C9: the bit stream's `empty()` predicate holds iff the buffer length
is 0 and `pos` is 0; a stream built by `newOStream` from a non-empty
buffer has `pos = 8` and is not `empty()` even though no writable room
exists in the current byte. -/
theorem ostream_empty_spec (os : ostream) (bytes : List Nat) (c : Nat) :
    (os.empty = true ↔ os.len = 0 ∧ os.pos = 0) ∧
    (bytes ≠ [] → bytes.length ≤ c →
      (newOStream bytes c).pos = 8 ∧ (newOStream bytes c).empty = false) := by
  constructor
  · simp [ostream.empty]
  · intro hne hle
    have hc : ¬c = 0 := by
      have : 1 ≤ bytes.length := List.length_pos.mpr hne
      omega
    simp [newOStream, hc, ostream.empty]

/-- Witness for C9 at a concrete one-byte buffer. -/
theorem ostream_empty_spec_witness :
    (newOStream [7] 1).pos = 8 ∧ (newOStream [7] 1).empty = false :=
  (ostream_empty_spec ⟨[], 0⟩ [7] 1).2 (by simp) (by simp)

/-! ## Block file-set reader (fs package reader)

Bytes are `Nat` values below 256; Go `int64` is `Int`. The protobuf
unmarshaling of an index entry and the injected `fileReader` are kept
abstract, exactly as the code abstracts them (`schema.IndexEntry`
and the reader's `read fileReader` field). -/

/-- Embedding of `schema.IndexEntry`: `{idx, size, offset int64; key string}`. -/
structure IndexEntry where
  idx : Int
  size : Int
  offset : Int
  key : String
deriving DecidableEq

/-- `idxLen`: the data frame carries the record ordinal as an 8-byte
big-endian integer. -/
def idxLen : Nat := 8

/-- Embedding of `proto.DecodeVarint` (golang/protobuf): consume LEB128
continuation bytes at 7-bit shifts 0, 7, …, 63, accumulating into a
`uint64` (wrap via `% 2^64`); return `(value, bytesConsumed)`, or
`(0, 0)` when the buffer is exhausted mid-varint or the varint spans
more than 10 bytes. Go checks `shift < 64` at the loop head and buffer
exhaustion inside the body; both orders agree on the `(0, 0)` result. -/
def decodeVarintLoop : Nat → Nat → Nat → List Nat → Nat × Nat
  | _, _, _, [] => (0, 0)
  | shift, x, n, b :: rest =>
    if 64 ≤ shift then (0, 0)
    else
      let x1 := (x ||| ((b &&& 0x7f) <<< shift)) % 18446744073709551616
      if b &&& 0x80 = 0 then (x1, n + 1)
      else decodeVarintLoop (shift + 7) x1 (n + 1) rest

/-- `proto.DecodeVarint`. -/
def DecodeVarint (buf : List Nat) : Nat × Nat := decodeVarintLoop 0 0 0 buf

/-- `binary.BigEndian.Uint64` over a byte list (the reader applies it to
an 8-byte slice). -/
def beUint64 (bs : List Nat) : Nat := bs.foldl (fun acc b => acc * 256 + b % 256) 0

/-- Go `int64(u)` for a `uint64` value: two's-complement reinterpretation. -/
def toInt64 (u : Nat) : Int :=
  if u < 9223372036854775808 then (u : Int) else (u : Int) - 18446744073709551616

/-- The errors `reader.Read` can surface. `unmarshalIndexEntry` stands
for a propagated `proto.Unmarshal` failure and `ioErr` for a propagated
error of the injected `fileReader`. -/
inductive ReadErr where
  | zeroSizeIndexEntry
  | notExpectedSize
  | markerNotFound
  | wrongIdx (expectedIdx actualIdx : Int)
  | unmarshalIndexEntry
  | ioErr
deriving DecidableEq

/-- The reader state `Read` touches: the unread tail of the in-memory
index buffer, the unread remainder of the data file, and the count of
entries read. -/
structure ReaderState where
  indexUnread : List Nat
  dataUnread : List Nat
  entriesRead : Nat
deriving DecidableEq

/-- Embedding of `reader.Read`. `unm` abstracts `proto.Unmarshal` into
`schema.IndexEntry`; `fread` abstracts the injected `fileReader` (given
the buffer length and the data file's unread remainder it reports how
many bytes it filled, and an optional error). The filled buffer is the
`n`-byte prefix of the remainder, zero-padded to the requested length as
`make([]byte, expectedSize)` zero-fills. Go's `int(entry.Size)` is
modelled as `entry.size.toNat` (a negative size would make the Go
allocation panic; the theorems below assume `0 ≤ entry.size`). -/
def readerRead (marker : List Nat)
    (unm : List Nat → Option IndexEntry)
    (fread : Nat → List Nat → Nat × Option ReadErr)
    (r : ReaderState) : Except ReadErr (String × List Nat) × ReaderState :=
  let dv := DecodeVarint r.indexUnread
  let size := dv.1
  let consumed := dv.2
  let r0 : ReaderState := { r with indexUnread := r.indexUnread.drop consumed }
  if consumed < 1 then (.error .zeroSizeIndexEntry, r0)
  else
    match unm (r0.indexUnread.take size) with
    | none => (.error .unmarshalIndexEntry, r0)
    | some entry =>
      let r1 : ReaderState := { r0 with indexUnread := r0.indexUnread.drop size }
      let expectedSize := marker.length + idxLen + entry.size.toNat
      let rd := fread expectedSize r1.dataUnread
      let n := rd.1
      let data := r1.dataUnread.take n ++ List.replicate (expectedSize - n) 0
      let r2 : ReaderState := { r1 with dataUnread := r1.dataUnread.drop n }
      match rd.2 with
      | some _ => (.error .ioErr, r2)
      | none =>
        if n ≠ expectedSize then (.error .notExpectedSize, r2)
        else if data.take marker.length ≠ marker then (.error .markerNotFound, r2)
        else
          let actualIdx := toInt64 (beUint64 ((data.drop marker.length).take idxLen))
          if actualIdx ≠ entry.idx then
            (.error (.wrongIdx entry.idx actualIdx), r2)
          else
            (.ok (entry.key, data.drop (marker.length + idxLen)),
              { r2 with entriesRead := r2.entriesRead + 1 })

/-- C2: on an index entry that decodes successfully, `Read` asks the
data file for exactly `markerLen + 8 + entry.Size` bytes; if the read
(reporting no error of its own) returns fewer bytes it fails with
`ErrReadNotExpectedSize`; else if the leading `markerLen` bytes differ
from the marker it fails with `ErrReadMarkerNotFound`; else if the
8-byte big-endian idx differs from `entry.Idx` it fails with
`ErrReadWrongIdx{expected, actual}`; otherwise it returns
`(entry.Key, payload)`, advances the data file by exactly the requested
bytes and increments `entriesRead` by one. A varint consuming zero
bytes fails with `ErrReadIndexEntryZeroSize`. -/
theorem reader_Read_spec (marker : List Nat)
    (unm : List Nat → Option IndexEntry)
    (fread : Nat → List Nat → Nat × Option ReadErr)
    (r : ReaderState) (size consumed : Nat)
    (hdv : DecodeVarint r.indexUnread = (size, consumed)) :
    (consumed = 0 →
      readerRead marker unm fread r = (.error .zeroSizeIndexEntry, r)) ∧
    (∀ entry n, 1 ≤ consumed →
      unm ((r.indexUnread.drop consumed).take size) = some entry →
      0 ≤ entry.size →
      fread (marker.length + idxLen + entry.size.toNat) r.dataUnread = (n, none) →
      n ≤ marker.length + idxLen + entry.size.toNat →
      (n < marker.length + idxLen + entry.size.toNat →
        readerRead marker unm fread r =
          (.error .notExpectedSize,
            { indexUnread := (r.indexUnread.drop consumed).drop size,
              dataUnread := r.dataUnread.drop n,
              entriesRead := r.entriesRead })) ∧
      (n = marker.length + idxLen + entry.size.toNat →
        ((r.dataUnread.take n).take marker.length ≠ marker →
          readerRead marker unm fread r =
            (.error .markerNotFound,
              { indexUnread := (r.indexUnread.drop consumed).drop size,
                dataUnread := r.dataUnread.drop n,
                entriesRead := r.entriesRead })) ∧
        ((r.dataUnread.take n).take marker.length = marker →
          (toInt64 (beUint64 (((r.dataUnread.take n).drop marker.length).take idxLen))
              ≠ entry.idx →
            readerRead marker unm fread r =
              (.error (.wrongIdx entry.idx
                  (toInt64 (beUint64
                    (((r.dataUnread.take n).drop marker.length).take idxLen)))),
                { indexUnread := (r.indexUnread.drop consumed).drop size,
                  dataUnread := r.dataUnread.drop n,
                  entriesRead := r.entriesRead })) ∧
          (toInt64 (beUint64 (((r.dataUnread.take n).drop marker.length).take idxLen))
              = entry.idx →
            readerRead marker unm fread r =
              (.ok (entry.key, (r.dataUnread.take n).drop (marker.length + idxLen)),
                { indexUnread := (r.indexUnread.drop consumed).drop size,
                  dataUnread := r.dataUnread.drop n,
                  entriesRead := r.entriesRead + 1 }))))) := by
  constructor
  · intro hc
    subst hc
    simp only [readerRead, hdv]
    norm_num
  · intro entry n hc hunm hsz hread hle
    have hnc : ¬consumed < 1 := by omega
    constructor
    · intro hlt
      have hne : n ≠ marker.length + idxLen + entry.size.toNat := by omega
      simp only [readerRead, hdv, if_neg hnc, hunm, hread, if_neg, hne, ite_true,
        if_pos, reduceIte]
      simp [hne]
    · intro hn
      subst hn
      have hrepl : marker.length + idxLen + entry.size.toNat
          - (marker.length + idxLen + entry.size.toNat) = 0 := by omega
      constructor
      · intro hm
        simp only [readerRead, hdv, if_neg hnc, hunm, hread, hrepl,
          List.replicate_zero, List.append_nil]
        simp [hm]
      · intro hm
        constructor
        · intro hidx0
          simp only [readerRead, hdv, if_neg hnc, hunm, hread, hrepl,
            List.replicate_zero, List.append_nil]
          simp [hm, hidx0]
        · intro hidx
          simp only [readerRead, hdv, if_neg hnc, hunm, hread, hrepl,
            List.replicate_zero, List.append_nil]
          simp [hm, hidx]

/-- Concrete index-entry unmarshaler for the C2 witness. -/
def unmW : List Nat → Option IndexEntry :=
  fun bs => if bs = [9, 9] then some ⟨0, 2, 0, "k"⟩ else none

/-- Concrete fileReader for the C2 witness: fills as many bytes as the
data file still has, reporting no error. -/
def freadW : Nat → List Nat → Nat × Option ReadErr :=
  fun bufLen dat => (min bufLen dat.length, none)

/-- Concrete reader state for the C2 witness: one index entry
`{idx = 0, size = 2, key = "k"}` and a data file holding one frame
`[202] ++ idx_be64(0) ++ [5, 6]` under marker `[202]`. -/
def rW : ReaderState := ⟨[2, 9, 9], [202, 0, 0, 0, 0, 0, 0, 0, 0, 5, 6], 0⟩

/-- Witness for C2: the successful read of the concrete frame. -/
theorem reader_Read_spec_witness :
    readerRead [202] unmW freadW rW = (.ok ("k", [5, 6]), ⟨[], [], 1⟩) := by
  have h := (reader_Read_spec [202] unmW freadW rW 2 1 (by decide)).2
    ⟨0, 2, 0, "k"⟩ 11 (by decide) (by decide) (by decide) (by decide) (by decide)
  have h2 := ((h.2 (by decide)).2 (by decide)).2 (by decide)
  exact h2

/-! ## Block file-set writer (fs package writer) -/

/-- Big-endian 8-byte encoding, `endianness.PutUint64` with
`endianness = binary.BigEndian`, applied to `uint64(currIdx)`. -/
def be64Bytes (u : Nat) : List Nat :=
  [u / 256 ^ 7 % 256, u / 256 ^ 6 % 256, u / 256 ^ 5 % 256, u / 256 ^ 4 % 256,
   u / 256 ^ 3 % 256, u / 256 ^ 2 % 256, u / 256 % 256, u % 256]

/-- Go `uint64(i)` for an `int64` value: two's-complement wrap. -/
def toUint64 (i : Int) : Nat := (i % 18446744073709551616).toNat

/-- The writer state `WriteAll` mutates: the next record index, the data
file cursor, the data fd's contents and the sequence of entries appended
to the index fd (the index fd holds each entry varint-length-prefixed
and protobuf-encoded; the entries themselves are what the claims speak
about). -/
structure WriterState where
  currIdx : Int
  currOffset : Int
  dataFile : List Nat
  indexFile : List IndexEntry
deriving DecidableEq

/-- The zero-valued writer produced by `NewWriter`. -/
def initialWriter : WriterState := ⟨0, 0, [], []⟩

/-- Embedding of `writer.writeData`: empty writes are skipped, otherwise
the bytes go to the data fd and `currOffset` advances by the byte count
written. -/
def writeData (w : WriterState) (data : List Nat) : WriterState :=
  if data.length = 0 then w
  else { w with dataFile := w.dataFile ++ data,
                currOffset := w.currOffset + data.length }

/-- Sum of the payload slice lengths of one append. -/
def totalSize (data : List (List Nat)) : Nat := (data.map List.length).sum

/-- Embedding of `writer.WriteAll` on the error-free I/O path: sum the
payload slice lengths; if the total is zero return at once; otherwise
snapshot the index entry `{idx = currIdx, size, key, offset = currOffset}`,
write `marker`, the 8-byte big-endian `currIdx`, and each payload slice
to the data fd, append the entry to the index fd, and increment
`currIdx`. (`Write(key, data)` is `WriteAll(key, [data])`.) -/
def WriteAll (marker : List Nat) (w : WriterState) (key : String)
    (data : List (List Nat)) : WriterState :=
  let size : Int := data.foldl (fun acc d => acc + (d.length : Int)) 0
  if size = 0 then w
  else
    let entry : IndexEntry :=
      { idx := w.currIdx, size := size, offset := w.currOffset, key := key }
    let w1 := writeData w marker
    let w2 := writeData w1 (be64Bytes (toUint64 w.currIdx))
    let w3 := data.foldl writeData w2
    { w3 with indexFile := w3.indexFile ++ [entry], currIdx := w3.currIdx + 1 }

/-- A sequence of appends against the writer. -/
def writeAllSeq (marker : List Nat) (w : WriterState)
    (apps : List (String × List (List Nat))) : WriterState :=
  apps.foldl (fun acc a => WriteAll marker acc a.1 a.2) w

theorem size_foldl_eq (data : List (List Nat)) :
    ∀ s : Int, data.foldl (fun acc d => acc + (d.length : Int)) s
      = s + (totalSize data : Nat) := by
  induction data with
  | nil => intro s; simp [totalSize]
  | cons d rest ih =>
    intro s
    simp only [List.foldl_cons, ih, totalSize, List.map_cons, List.sum_cons]
    push_cast
    ring

theorem writeData_eq (w : WriterState) (d : List Nat) :
    writeData w d
      = { w with dataFile := w.dataFile ++ d,
                 currOffset := w.currOffset + (d.length : Int) } := by
  unfold writeData
  split
  · rename_i h
    have : d = [] := List.length_eq_zero.mp h
    subst this
    simp
  · rfl

theorem foldl_writeData (data : List (List Nat)) :
    ∀ w : WriterState,
      data.foldl writeData w
        = { w with dataFile := w.dataFile ++ data.flatten,
                   currOffset := w.currOffset + (totalSize data : Nat) } := by
  induction data with
  | nil => intro w; simp [totalSize]
  | cons d rest ih =>
    intro w
    simp only [List.foldl_cons, ih, writeData_eq, totalSize, List.map_cons,
      List.sum_cons, List.flatten_cons]
    congr 1
    · push_cast
      ring
    · simp

theorem WriteAll_closed (marker : List Nat) (w : WriterState) (key : String)
    (data : List (List Nat)) (h : totalSize data ≠ 0) :
    WriteAll marker w key data =
      { currIdx := w.currIdx + 1,
        currOffset := w.currOffset + (marker.length : Nat) + (idxLen : Nat)
          + (totalSize data : Nat),
        dataFile := w.dataFile ++ marker ++ be64Bytes (toUint64 w.currIdx)
          ++ data.flatten,
        indexFile := w.indexFile
          ++ [{ idx := w.currIdx, size := (totalSize data : Nat),
                offset := w.currOffset, key := key }] } := by
  have hs : data.foldl (fun acc d => acc + (d.length : Int)) 0
      = ((totalSize data : Nat) : Int) := by
    rw [size_foldl_eq]
    ring
  have hz' : ¬((totalSize data : Nat) : Int) = 0 := by exact_mod_cast h
  have hbe : (be64Bytes (toUint64 w.currIdx)).length = 8 := by
    simp [be64Bytes]
  simp only [WriteAll, hs, if_neg hz', foldl_writeData, writeData_eq, hbe, idxLen]

theorem WriteAll_size_zero (marker : List Nat) (w : WriterState) (key : String)
    (data : List (List Nat)) (h : totalSize data = 0) :
    WriteAll marker w key data = w := by
  have hs : data.foldl (fun acc d => acc + (d.length : Int)) 0 = 0 := by
    rw [size_foldl_eq, h]
    simp
  simp [WriteAll, hs]

/-- The index entries a faultless writer is specified to produce for a
list of (key, payload) appends, starting at record index `i` and data
offset `off`: entry `{idx = i, size, offset = off}` followed by the
entries for the rest at index `i + 1` and offset advanced by
`markerLen + 8 + size`. -/
def specEntries (markerLen : Nat) :
    Int → Int → List (String × List (List Nat)) → List IndexEntry
  | _, _, [] => []
  | i, off, a :: rest =>
    { idx := i, size := (totalSize a.2 : Nat), offset := off, key := a.1 }
      :: specEntries markerLen (i + 1)
          (off + (markerLen : Nat) + (idxLen : Nat) + (totalSize a.2 : Nat)) rest

theorem writeAllSeq_indexFile (marker : List Nat) :
    ∀ (apps : List (String × List (List Nat))) (w : WriterState),
      (writeAllSeq marker w apps).indexFile
        = w.indexFile ++ specEntries marker.length w.currIdx w.currOffset
            (apps.filter (fun b => totalSize b.2 != 0)) := by
  intro apps
  induction apps with
  | nil => intro w; simp [writeAllSeq, specEntries]
  | cons a rest ih =>
    intro w
    have hstep : writeAllSeq marker w (a :: rest)
        = writeAllSeq marker (WriteAll marker w a.1 a.2) rest := rfl
    by_cases h : totalSize a.2 = 0
    · have hfa : (totalSize a.2 != 0) = false := by simpa using h
      rw [hstep, WriteAll_size_zero marker w a.1 a.2 h, ih w,
        List.filter_cons_of_neg (by simp [hfa])]
    · have hfa : (totalSize a.2 != 0) = true := by simpa using h
      rw [hstep, WriteAll_closed marker w a.1 a.2 h, ih,
        List.filter_cons_of_pos (by simp [hfa])]
      simp only [specEntries, List.append_assoc, List.singleton_append]

/-- Per-index closed form of `specEntries`. -/
theorem specEntries_getElem (m : Nat) :
    ∀ (l : List (String × List (List Nat))) (i : Nat) (i0 off0 : Int)
      (a : String × List (List Nat)),
      l[i]? = some a →
      (specEntries m i0 off0 l)[i]? =
        some { idx := i0 + i, size := (totalSize a.2 : Nat),
               offset := off0 + ((l.take i).map
                 (fun b => ((m : Int) + (idxLen : Nat) + (totalSize b.2 : Nat)))).sum,
               key := a.1 } := by
  intro l
  induction l with
  | nil => intro i i0 off0 a h; simp at h
  | cons hd tl ih =>
    intro i i0 off0 a h
    cases i with
    | zero =>
      have ha : hd = a := by simpa using h
      subst ha
      simp [specEntries]
    | succ j =>
      have htl : tl[j]? = some a := by simpa using h
      have := ih j (i0 + 1)
        (off0 + (m : Nat) + (idxLen : Nat) + (totalSize hd.2 : Nat)) a htl
      rw [show (specEntries m i0 off0 (hd :: tl))[j + 1]?
          = (specEntries m (i0 + 1)
              (off0 + (m : Nat) + (idxLen : Nat) + (totalSize hd.2 : Nat)) tl)[j]?
        from by simp [specEntries], this]
      simp only [Option.some.injEq, IndexEntry.mk.injEq, List.take_succ_cons,
        List.map_cons, List.sum_cons]
      exact ⟨by push_cast; ring, trivial, by ring, trivial⟩

/-- C3: over any sequence of successful appends, the `i`-th index entry
(counting only appends with non-empty payload) has `idx = i`, `size`
equal to the total payload byte length of append `i`, and `offset` equal
to the cumulative data-file bytes written before record `i`, i.e. the
sum over `j < i` of `markerLen + 8 + size_j`. -/
theorem writer_index_invariants (marker : List Nat)
    (apps : List (String × List (List Nat))) (i : Nat)
    (a : String × List (List Nat))
    (ha : (apps.filter (fun b => totalSize b.2 != 0))[i]? = some a) :
    (writeAllSeq marker initialWriter apps).indexFile[i]? =
      some { idx := (i : Int),
             size := (totalSize a.2 : Nat),
             offset := (((apps.filter (fun b => totalSize b.2 != 0)).take i).map
               (fun b => ((marker.length : Int) + (idxLen : Nat)
                 + (totalSize b.2 : Nat)))).sum,
             key := a.1 } := by
  rw [writeAllSeq_indexFile marker apps initialWriter]
  have h := specEntries_getElem marker.length
    (apps.filter (fun b => totalSize b.2 != 0)) i 0 0 a ha
  simpa [initialWriter] using h

/-- Witness for C3: three appends, the middle one empty; the second
surviving entry has `idx = 1`, `size = 2` and
`offset = markerLen + 8 + 1 = 10`. -/
theorem writer_index_invariants_witness :
    (writeAllSeq [9] initialWriter
        [("a", [[1]]), ("b", [[]]), ("c", [[2, 3]])]).indexFile[1]? =
      some { idx := 1, size := 2, offset := 10, key := "c" } := by
  have h := writer_index_invariants [9]
    [("a", [[1]]), ("b", [[]]), ("c", [[2, 3]])] 1 ("c", [[2, 3]]) (by decide)
  simpa [totalSize] using h

/-- C4: an append whose payload has total length zero is a no-op: the
writer state (record index, data offset, data fd, index fd) is returned
unchanged and no error is raised. -/
theorem WriteAll_empty_noop (marker : List Nat) (w : WriterState) (key : String)
    (data : List (List Nat)) (h : totalSize data = 0) :
    WriteAll marker w key data = w := by
  have hs : data.foldl (fun acc d => acc + (d.length : Int)) 0 = 0 := by
    rw [size_foldl_eq, h]
    simp
  simp [WriteAll, hs]

/-- Witness for C4: appending two empty slices changes nothing. -/
theorem WriteAll_empty_noop_witness :
    WriteAll [9] ⟨5, 7, [1], []⟩ "k" [[], []] = ⟨5, 7, [1], []⟩ :=
  WriteAll_empty_noop [9] ⟨5, 7, [1], []⟩ "k" [[], []] (by decide)

/-! ### writer.Close and the checkpoint -/

/-- The observable steps of `writer.Close`, in program order: truncate
the info file, marshal the info header, write it, close the
info/index/data descriptors, create the checkpoint file. -/
inductive CloseStep where
  | truncateInfo
  | marshalInfo
  | writeInfo
  | closeInfoFd
  | closeIndexFd
  | closeDataFd
  | createCheckpoint
deriving DecidableEq

/-- The info header `schema.IndexInfo{Start, BlockSize, Entries}`. -/
structure InfoHeader where
  start : Int
  blockSize : Int
  entries : Int
deriving DecidableEq

/-- The step order of a fully successful `Close`. -/
def closeOrder : List CloseStep :=
  [.truncateInfo, .marshalInfo, .writeInfo, .closeInfoFd, .closeIndexFd,
   .closeDataFd, .createCheckpoint]

/-- Embedding of `writer.Close` as a trace semantics. `fails` says which
steps' underlying operations fail; the result is the list of steps that
completed, the step whose error `Close` returns (if any), and the info
header written (once the write step completed). Each Go `return err`
ends the trace. The body of `closeFiles` is Modelled from the spec: the
spec fixes that it closes the three descriptors in order, returning the
first error. The checkpoint step is `openWritable` on the checkpoint
path (the code ignores the error of the subsequent `fd.Close()`). -/
def writerClose (start blockSize currIdx : Int) (fails : CloseStep → Bool) :
    List CloseStep × Option CloseStep × Option InfoHeader :=
  if fails .truncateInfo then ([], some .truncateInfo, none)
  else if fails .marshalInfo then ([.truncateInfo], some .marshalInfo, none)
  else if fails .writeInfo then
    ([.truncateInfo, .marshalInfo], some .writeInfo, none)
  else
    let hdr : InfoHeader :=
      { start := start, blockSize := blockSize, entries := currIdx }
    if fails .closeInfoFd then
      ([.truncateInfo, .marshalInfo, .writeInfo], some .closeInfoFd, some hdr)
    else if fails .closeIndexFd then
      ([.truncateInfo, .marshalInfo, .writeInfo, .closeInfoFd],
        some .closeIndexFd, some hdr)
    else if fails .closeDataFd then
      ([.truncateInfo, .marshalInfo, .writeInfo, .closeInfoFd, .closeIndexFd],
        some .closeDataFd, some hdr)
    else if fails .createCheckpoint then
      ([.truncateInfo, .marshalInfo, .writeInfo, .closeInfoFd, .closeIndexFd,
        .closeDataFd], some .createCheckpoint, some hdr)
    else (closeOrder, none, some hdr)

/-- C5: the checkpoint file is created iff `Close` returns no error; when
it is created, the completed steps are exactly the canonical order — the
header `{start, window, entries = currIdx}` written and all three
descriptors closed strictly before the checkpoint, which is last — and
if truncating, writing the info header, or closing any of the three
files fails, `Close` returns an error and the checkpoint is never
created. -/
theorem writer_Close_checkpoint_spec (start blockSize currIdx : Int)
    (fails : CloseStep → Bool) :
    ((CloseStep.createCheckpoint ∈ (writerClose start blockSize currIdx fails).1) ↔
      (writerClose start blockSize currIdx fails).2.1 = none) ∧
    (CloseStep.createCheckpoint ∈ (writerClose start blockSize currIdx fails).1 →
      (writerClose start blockSize currIdx fails).1 = closeOrder ∧
      (writerClose start blockSize currIdx fails).1.getLast?
        = some CloseStep.createCheckpoint ∧
      (writerClose start blockSize currIdx fails).2.2
        = some { start := start, blockSize := blockSize, entries := currIdx }) ∧
    (∀ s, s ∈ [CloseStep.truncateInfo, CloseStep.writeInfo, CloseStep.closeInfoFd,
        CloseStep.closeIndexFd, CloseStep.closeDataFd] → fails s = true →
      (writerClose start blockSize currIdx fails).2.1 ≠ none ∧
      CloseStep.createCheckpoint ∉ (writerClose start blockSize currIdx fails).1) := by
  by_cases h1 : fails .truncateInfo <;>
  by_cases h2 : fails .marshalInfo <;>
  by_cases h3 : fails .writeInfo <;>
  by_cases h4 : fails .closeInfoFd <;>
  by_cases h5 : fails .closeIndexFd <;>
  by_cases h6 : fails .closeDataFd <;>
  by_cases h7 : fails .createCheckpoint <;>
    simp_all [writerClose, closeOrder, List.forall_mem_cons]

/-- Witness for C5: when closing the data descriptor fails, `Close`
errors and no checkpoint step completes. -/
theorem writer_Close_checkpoint_spec_witness :
    (writerClose 1 2 3 (fun s => decide (s = CloseStep.closeDataFd))).2.1 ≠ none ∧
    CloseStep.createCheckpoint
      ∉ (writerClose 1 2 3 (fun s => decide (s = CloseStep.closeDataFd))).1 :=
  (writer_Close_checkpoint_spec 1 2 3
      (fun s => decide (s = CloseStep.closeDataFd))).2.2
    CloseStep.closeDataFd (by decide) (by decide)

/-! ## Protobuf diff iterator (proto package)

Byte-string dictionary entries (`[]byte`) are `List Nat`. The iterator
methods `moveToEndOfBytesDict` and `addToBytesDict` act on
`customFields[fieldIdx].iteratorBytesFieldDict`; the embeddings take the
dictionary directly. -/

/-- Embedding of the loop of `iterator.moveToEndOfBytesDict`: for `j`
from the hit index upward, while `j + 1 < len`, swap entries `j` and
`j + 1`. -/
def moveToEndLoop (existing : List (List Nat)) (j : Nat) : List (List Nat) :=
  if h : j + 1 < existing.length then
    moveToEndLoop
      ((existing.set j (existing.getD (j + 1) [])).set (j + 1) (existing.getD j []))
      (j + 1)
  else existing
termination_by existing.length - j
decreasing_by simp only [List.length_set]; omega

/-- Embedding of `iterator.moveToEndOfBytesDict` on the dictionary of
one custom field: bubble the entry at index `i` to the tail by adjacent
swaps. -/
def moveToEndOfBytesDict (existing : List (List Nat)) (i : Nat) : List (List Nat) :=
  moveToEndLoop existing i

theorem take_append_cons_succ {α : Type} (a : List α) (x : α) (rest : List α) :
    (a ++ x :: rest).take (a.length + 1) = a ++ [x] := by
  induction a with
  | nil => rfl
  | cons h t ih => simpa using ih

theorem drop_append_cons_cons {α : Type} (a : List α) (x y : α) (rest : List α) :
    (a ++ x :: y :: rest).drop (a.length + 2) = rest := by
  induction a with
  | nil => rfl
  | cons h t ih => simp [ih]

theorem getD_append_cons_succ {α : Type} (a : List α) (x y : α) (rest : List α)
    (d : α) : (a ++ x :: y :: rest).getD (a.length + 1) d = y := by
  induction a with
  | nil => rfl
  | cons h t ih => simpa using ih

/-- One adjacent swap at `j`, written out as take/drop pieces. -/
theorem swapAdj_decomp :
    ∀ (j : Nat) (l : List (List Nat)), j + 1 < l.length →
      (l.set j (l.getD (j + 1) [])).set (j + 1) (l.getD j [])
        = l.take j ++ l.getD (j + 1) [] :: l.getD j [] :: l.drop (j + 2) := by
  intro j
  induction j with
  | zero =>
    intro l h
    match l, h with
    | x :: y :: rest, _ => simp
  | succ j ih =>
    intro l h
    match l, h with
    | x :: rest, h =>
      simp only [List.set_cons_succ, List.getD_cons_succ, List.take_succ_cons,
        List.drop_succ_cons, List.cons_append]
      exact congrArg (x :: ·) (ih rest (by simpa using h))

theorem moveToEndLoop_eq :
    ∀ (fuel : Nat) (l : List (List Nat)) (j : Nat), l.length - j = fuel →
      j < l.length →
      moveToEndLoop l j = l.take j ++ l.drop (j + 1) ++ [l.getD j []] := by
  intro fuel
  induction fuel using Nat.strong_induction_on with
  | _ fuel ih =>
    intro l j hf hj
    rw [moveToEndLoop]
    by_cases hlt : j + 1 < l.length
    · simp only [dif_pos hlt]
      have hlen_a : (l.take j).length = j := by
        rw [List.length_take]
        omega
      rw [swapAdj_decomp j l hlt]
      rw [ih (l.length - (j + 1)) (by omega) _ (j + 1)
        (by simp only [List.length_append, List.length_cons, List.length_drop,
              hlen_a]
            omega)
        (by simp only [List.length_append, List.length_cons, List.length_drop,
              hlen_a]
            omega)]
      have hdj1 : l.drop (j + 1) = l.getD (j + 1) [] :: l.drop (j + 2) := by
        rw [List.getD_eq_getElem?_getD, List.getElem?_eq_getElem (by omega)]
        exact List.drop_eq_getElem_cons (by omega)
      rw [hdj1]
      rw [show j + 1 = (l.take j).length + 1 from by rw [hlen_a]]
      rw [show j + 2 = (l.take j).length + 2 from by rw [hlen_a]]
      rw [take_append_cons_succ, drop_append_cons_cons, getD_append_cons_succ]
      simp
    · simp only [dif_neg hlt]
      have hdr : l.drop (j + 1) = [] := List.drop_of_length_le (by omega)
      have hgd : l.getD j [] = l[j] := by
        rw [List.getD_eq_getElem?_getD, List.getElem?_eq_getElem hj]
        rfl
      rw [hdr, hgd, List.append_nil]
      have hsplit := List.take_append_drop j l
      rw [List.drop_eq_getElem_cons hj, hdr] at hsplit
      exact hsplit.symm

/-- C6: promoting the hit entry `i` of a byte dictionary `d` with
`i < len(d)` yields `d[0..i-1] ++ d[i+1..] ++ [d[i]]`: the hit entry
moves to the tail (so the previous tail ends up immediately before it)
and all other entries keep their relative order. -/
theorem moveToEndOfBytesDict_spec (d : List (List Nat)) (i : Nat)
    (h : i < d.length) :
    moveToEndOfBytesDict d i = d.take i ++ d.drop (i + 1) ++ [d.getD i []] :=
  moveToEndLoop_eq (d.length - i) d i rfl h

/-- Witness for C6: promoting the head of a three-entry dictionary. -/
theorem moveToEndOfBytesDict_spec_witness :
    moveToEndOfBytesDict [[1], [2], [3]] 0 = [[2], [3], [1]] :=
  moveToEndOfBytesDict_spec [[1], [2], [3]] 0 (by decide)

/-- Embedding of the shift loop of `iterator.addToBytesDict`: for `i`
from 0, while `i + 1 < len`, overwrite entry `i` with entry `i + 1`. -/
def shiftLeftLoop (existing : List (List Nat)) (i : Nat) : List (List Nat) :=
  if h : i + 1 < existing.length then
    shiftLeftLoop (existing.set i (existing.getD (i + 1) [])) (i + 1)
  else existing
termination_by existing.length - i
decreasing_by simp only [List.length_set]; omega

/-- Embedding of `iterator.addToBytesDict` on the dictionary of one
custom field. When the dictionary is smaller than the advertised LRU
size, append at the tail; otherwise shift every entry left by one and
store the new value at index `len - 1`. Go's final
`existing[len(existing)-1] = b` panics when the slice is empty (LRU size
0); the panic is modelled as `none`. -/
def addToBytesDict (byteFieldDictLRUSize : Nat) (existing : List (List Nat))
    (b : List Nat) : Option (List (List Nat)) :=
  if existing.length < byteFieldDictLRUSize then some (existing ++ [b])
  else
    let shifted := shiftLeftLoop existing 0
    if shifted.length = 0 then none
    else some (shifted.set (shifted.length - 1) b)

theorem set_at_append_length {α : Type} (a : List α) (x b : α) (rest : List α) :
    (a ++ x :: rest).set a.length b = a ++ b :: rest := by
  induction a with
  | nil => rfl
  | cons h t ih => simp [ih]

theorem shiftLeftLoop_eq :
    ∀ (fuel : Nat) (l : List (List Nat)) (i : Nat), l.length - i = fuel →
      i < l.length →
      shiftLeftLoop l i
        = l.take i ++ l.drop (i + 1) ++ [l.getD (l.length - 1) []] := by
  intro fuel
  induction fuel using Nat.strong_induction_on with
  | _ fuel ih =>
    intro l i hf hi
    rw [shiftLeftLoop]
    by_cases hlt : i + 1 < l.length
    · simp only [dif_pos hlt]
      have hlen_a : (l.take i).length = i := by
        rw [List.length_take]
        omega
      have hdj1 : l.drop (i + 1) = l.getD (i + 1) [] :: l.drop (i + 2) := by
        rw [List.getD_eq_getElem?_getD, List.getElem?_eq_getElem (by omega)]
        exact List.drop_eq_getElem_cons (by omega)
      have hdec : l.set i (l.getD (i + 1) [])
          = l.take i ++ l.getD (i + 1) [] :: l.drop (i + 1) :=
        List.set_eq_take_cons_drop _ hi
      rw [hdec]
      rw [ih (l.length - (i + 1)) (by omega) _ (i + 1)
        (by simp only [List.length_append, List.length_cons, List.length_drop,
              hlen_a]
            omega)
        (by simp only [List.length_append, List.length_cons, List.length_drop,
              hlen_a]
            omega)]
      have hlen2 : (l.take i ++ l.getD (i + 1) [] :: l.drop (i + 1)).length
          = l.length := by
        simp only [List.length_append, List.length_cons, List.length_drop, hlen_a]
        omega
      rw [hlen2, hdj1]
      rw [show i + 1 = (l.take i).length + 1 from by rw [hlen_a]]
      rw [show i + 2 = (l.take i).length + 2 from by rw [hlen_a]]
      rw [take_append_cons_succ, drop_append_cons_cons]
      have hgd : (l.take i ++ l.getD ((l.take i).length + 1) []
            :: l.getD ((l.take i).length + 1) [] :: l.drop ((l.take i).length + 2)).getD
            (l.length - 1) [] = l.getD (l.length - 1) [] := by
        simp only [List.getD_eq_getElem?_getD]
        rw [List.getElem?_append_right (by rw [hlen_a]; omega)]
        rw [hlen_a]
        rw [show l.length - 1 - i = (l.length - i - 2) + 1 from by omega]
        rw [List.getElem?_cons_succ]
        rw [List.getElem?_eq_getElem (show i + 1 < l.length from by omega)]
        simp only [Option.getD_some]
        rw [← List.drop_eq_getElem_cons (show i + 1 < l.length from by omega)]
        rw [List.getElem?_drop]
        rw [show i + 1 + (l.length - i - 2) = l.length - 1 from by omega]
      rw [hgd]
      simp
    · simp only [dif_neg hlt]
      have hdr : l.drop (i + 1) = [] := List.drop_of_length_le (by omega)
      have hi1 : i = l.length - 1 := by omega
      have hgd : l.getD (l.length - 1) [] = l[i] := by
        rw [← hi1, List.getD_eq_getElem?_getD, List.getElem?_eq_getElem hi]
        rfl
      rw [hdr, hgd, List.append_nil]
      have hsplit := List.take_append_drop i l
      rw [List.drop_eq_getElem_cons hi, hdr] at hsplit
      exact hsplit.symm

/-- C7 (amended): inserting `b` appends at the tail while the dictionary
is smaller than the advertised LRU size `L`; when the dictionary is full
with `L ≥ 1` it evicts index 0 by shifting every entry left and storing
`b` at the tail, yielding `d[1..] ++ [b]`. (For `L = 0` the eviction
path panics; see the counterexample.) -/
theorem addToBytesDict_spec (L : Nat) (d : List (List Nat)) (b : List Nat) :
    (d.length < L → addToBytesDict L d b = some (d ++ [b])) ∧
    (d.length = L → 1 ≤ L → addToBytesDict L d b = some (d.drop 1 ++ [b])) := by
  constructor
  · intro h
    simp [addToBytesDict, h]
  · intro hlen hL
    have hne : ¬d.length < L := by omega
    simp only [addToBytesDict, if_neg hne]
    rw [shiftLeftLoop_eq (d.length - 0) d 0 rfl (by omega)]
    rw [show d.take 0 ++ d.drop 1 ++ [d.getD (d.length - 1) []]
        = d.drop 1 ++ [d.getD (d.length - 1) []] from by simp]
    have hlen1 : (d.drop 1 ++ [d.getD (d.length - 1) []]).length = d.length := by
      simp only [List.length_append, List.length_drop, List.length_cons,
        List.length_nil]
      omega
    rw [hlen1, if_neg (by omega)]
    rw [show d.length - 1 = (d.drop 1).length from by simp]
    rw [set_at_append_length]

/-- Witness for C7: eviction on a full two-entry dictionary. -/
theorem addToBytesDict_spec_witness :
    addToBytesDict 2 [[1], [2]] [3] = some [[2], [3]] :=
  (addToBytesDict_spec 2 [[1], [2]] [3]).2 rfl (by omega)

/-- C7 counterexample: with advertised LRU size 0 the empty dictionary is
"full" (`len(d) == L == 0`); the claim as stated predicts the result
`d[1..] ++ [b] = [b]`, but the code's final write `existing[len-1] = b`
indexes an empty slice and panics (modelled as `none`). -/
theorem addToBytesDict_L0_counterexample :
    addToBytesDict 0 [] [1] = none ∧ addToBytesDict 0 [] [1] ≠ some [[1]] := by
  have h0 : shiftLeftLoop ([] : List (List Nat)) 0 = [] := by
    rw [shiftLeftLoop]
    simp
  constructor
  · simp [addToBytesDict, h0]
  · simp [addToBytesDict, h0]

/-! ### iterator.readCustomFieldsSchema -/

/-- Modelled from the spec: the 3-bit field-type tag value 0 means "not
custom encoded" (`cNotCustomEncoded`; the constant's definition lives
outside these sources). -/
def cNotCustomEncoded : Nat := 0

/-- Embedding of `customFieldState` as far as this schema pass fills it:
field number and 3-bit type tag (`newCustomFieldState(i, fieldType)`). -/
structure customFieldState where
  fieldNum : Nat
  fieldType : Nat
deriving DecidableEq

/-- Errors of the header-schema pass: the stream ran out mid-header, or
the (unreachable) "maximum custom field number too large" rejection. -/
inductive SchemaReadErr where
  | endOfStream
  | maxCustomFieldNumTooLarge
deriving DecidableEq

/-- The loop of `readCustomFieldsSchema`: for `i` from 1 to
`maxCustomFieldNum`, read a 3-bit tag (`typeTags` is the sequence the
stream yields; exhaustion is the stream's EOF); tag `cNotCustomEncoded`
contributes nothing, any other tag appends
`newCustomFieldState(i, fieldType)`. -/
def readSchemaLoop :
    Nat → Nat → List Nat → List customFieldState →
      Except SchemaReadErr (List customFieldState)
  | _, 0, _, acc => .ok acc
  | _, _ + 1, [], _ => .error .endOfStream
  | i, r + 1, t :: rest, acc =>
    if t = cNotCustomEncoded then readSchemaLoop (i + 1) r rest acc
    else readSchemaLoop (i + 1) r rest (acc ++ [⟨i, t⟩])

/-- Embedding of `iterator.readCustomFieldsSchema`, given the decoded
`maxCustomFieldNum` varint and the stream's 3-bit tags. The guard is the
code's literal `if maxCustomFieldNum > maxCustomFieldNum` comparison of
the decoded value against itself. (The slice-capacity branch on
`maxTSZFieldsCapacityRetain` only chooses whether to reuse a backing
array and does not affect the states produced.) -/
def readCustomFieldsSchema (maxCustomFieldNum : Nat) (typeTags : List Nat) :
    Except SchemaReadErr (List customFieldState) :=
  if maxCustomFieldNum > maxCustomFieldNum then
    .error .maxCustomFieldNumTooLarge
  else readSchemaLoop 1 maxCustomFieldNum typeTags []

/-- Does the result carry the "maximum custom field number in header too
large" error? -/
def isMaxFieldNumError : Except SchemaReadErr (List customFieldState) → Bool
  | .error .maxCustomFieldNumTooLarge => true
  | _ => false

theorem readSchemaLoop_no_max_error :
    ∀ (r i : Nat) (tags : List Nat) (acc : List customFieldState),
      isMaxFieldNumError (readSchemaLoop i r tags acc) = false := by
  intro r
  induction r with
  | zero => intro i tags acc; rfl
  | succ r ih =>
    intro i tags acc
    cases tags with
    | nil => rfl
    | cons t rest =>
      rw [readSchemaLoop]
      split
      · exact ih (i + 1) rest acc
      · exact ih (i + 1) rest (acc ++ [⟨i, t⟩])

/-- C8: the header guard compares the decoded maximum custom field
number against itself, so the "maximum custom field in header is ...
but maximum allowed is ..." error branch is unreachable: no header is
ever rejected for an oversized maximum custom field number. -/
theorem readCustomFieldsSchema_guard_unreachable (maxCustomFieldNum : Nat)
    (typeTags : List Nat) :
    isMaxFieldNumError (readCustomFieldsSchema maxCustomFieldNum typeTags)
      = false := by
  unfold readCustomFieldsSchema
  rw [if_neg (lt_irrefl maxCustomFieldNum)]
  exact readSchemaLoop_no_max_error maxCustomFieldNum 1 typeTags []

/-! ### iterator.readProtoValues -/

/-- The attributes of one known field of the schema that
`readProtoValues` inspects: its protobuf field number, whether
`GetMessageType()` is non-nil, and whether `IsRepeated()`. -/
structure ProtoFieldDesc where
  fieldNum : Nat
  isMessage : Bool
  repeated : Bool
deriving DecidableEq

/-- Modelled from the spec: `isDefaultValue` ("if a field's value is not
its proto default, copy it"); field values are abstracted as `Nat` with
0 the proto default. -/
def isDefaultValue (v : Nat) : Bool := v == 0

/-- Embedding of the merge loop of `iterator.readProtoValues`: walk the
known fields of the unmarshaled message `m`; a field whose
`messageType == nil && !field.IsRepeated()` is skipped; a field whose
value is the proto default is skipped; otherwise
`lastIterated.SetFieldByNumber(fieldNum, curVal)`. Messages are
functions from field numbers to values. -/
def mergeKnownFields (knownFields : List ProtoFieldDesc) (m last : Nat → Nat) :
    Nat → Nat :=
  knownFields.foldl
    (fun acc field =>
      if !field.isMessage && !field.repeated then acc
      else if isDefaultValue (m field.fieldNum) then acc
      else fun k => if k = field.fieldNum then m field.fieldNum else acc k)
    last

/-- Error domain of the merge pass (only the clear loop can fail here:
`TryClearFieldByNumber` rejects a field number the schema lacks). -/
inductive ProtoValuesErr where
  | clearUnknownField
deriving DecidableEq

/-- Embedding of the clear loop of `iterator.readProtoValues`:
`TryClearFieldByNumber` for each bitset value in order; clearing resets
the field to its proto default (0); an unknown field number is an
error. -/
def tryClearFields (knownFields : List ProtoFieldDesc) :
    List Nat → (Nat → Nat) → Except ProtoValuesErr (Nat → Nat)
  | [], acc => .ok acc
  | fieldNum :: rest, acc =>
    if knownFields.all (fun f => f.fieldNum != fieldNum) then
      .error .clearUnknownField
    else tryClearFields knownFields rest (fun k => if k = fieldNum then 0 else acc k)

/-- Embedding of `iterator.readProtoValues` past the control bits and
the unmarshal: if the proto-changes bit is 0 nothing changes; otherwise
the merge loop runs over the known fields and, when the
fields-set-to-default bit is 1, the bitset's field numbers are cleared
afterwards. -/
def readProtoValues (knownFields : List ProtoFieldDesc)
    (protoChangesBit fieldsSetToDefaultBit : Bool) (bitsetValues : List Nat)
    (m last : Nat → Nat) : Except ProtoValuesErr (Nat → Nat) :=
  if !protoChangesBit then .ok last
  else
    let merged := mergeKnownFields knownFields m last
    if fieldsSetToDefaultBit then tryClearFields knownFields bitsetValues merged
    else .ok merged

/-- The value of field `k` after the pass, `none` if the pass failed. -/
def evalOk (e : Except ProtoValuesErr (Nat → Nat)) (k : Nat) : Option Nat :=
  match e with
  | .ok f => some (f k)
  | .error _ => none

/-- Did the pass succeed? -/
def isOkPass (e : Except ProtoValuesErr (Nat → Nat)) : Bool :=
  match e with
  | .ok _ => true
  | .error _ => false

theorem mergeKnownFields_apply (m : Nat → Nat) :
    ∀ (fields : List ProtoFieldDesc) (last : Nat → Nat) (k : Nat),
      mergeKnownFields fields m last k
        = if fields.any (fun f => k == f.fieldNum && (f.isMessage || f.repeated)
              && !isDefaultValue (m f.fieldNum))
          then m k else last k := by
  intro fields
  induction fields with
  | nil => intro last k; simp [mergeKnownFields]
  | cons f rest ih =>
    intro last k
    rw [show mergeKnownFields (f :: rest) m last
        = mergeKnownFields rest m
            (if !f.isMessage && !f.repeated then last
             else if isDefaultValue (m f.fieldNum) then last
             else fun k => if k = f.fieldNum then m f.fieldNum else last k)
      from rfl, ih]
    simp only [List.any_cons]
    by_cases hfn : k = f.fieldNum <;>
    by_cases him : f.isMessage = true <;>
    by_cases hrp : f.repeated = true <;>
    by_cases hdv : isDefaultValue (m f.fieldNum) = true <;>
    by_cases hrest : rest.any (fun f => k == f.fieldNum
        && (f.isMessage || f.repeated) && !isDefaultValue (m f.fieldNum)) = true <;>
      simp_all

theorem tryClearFields_apply (knownFields : List ProtoFieldDesc) :
    ∀ (bvs : List Nat) (acc r : Nat → Nat),
      tryClearFields knownFields bvs acc = .ok r →
      ∀ k, r k = if k ∈ bvs then 0 else acc k := by
  intro bvs
  induction bvs with
  | nil =>
    intro acc r h k
    have hr : acc = r := by
      simpa [tryClearFields] using h
    simp [← hr]
  | cons fn rest ih =>
    intro acc r h k
    rw [tryClearFields] at h
    split at h
    · exact absurd h (by simp)
    · have hk := ih _ _ h k
      rw [hk]
      by_cases hmem : k ∈ rest
      · simp [hmem]
      · by_cases hkf : k = fn
        · simp [hmem, hkf]
        · simp [hmem, hkf]

theorem any_copy_iff (fields : List ProtoFieldDesc) (m : Nat → Nat) (k : Nat) :
    (fields.any (fun f => k == f.fieldNum && (f.isMessage || f.repeated)
        && !isDefaultValue (m f.fieldNum)) = true)
      ↔ (∃ f ∈ fields, f.fieldNum = k ∧ (f.isMessage = true ∨ f.repeated = true)
          ∧ m k ≠ 0) := by
  rw [List.any_eq_true]
  constructor
  · rintro ⟨f, hf, hp⟩
    simp only [Bool.and_eq_true, beq_iff_eq, Bool.or_eq_true, Bool.not_eq_true',
      isDefaultValue, beq_eq_false_iff_ne] at hp
    obtain ⟨⟨h1, h2⟩, h3⟩ := hp
    exact ⟨f, hf, h1.symm, h2, by rw [h1]; exact h3⟩
  · rintro ⟨f, hf, h1, h2, h3⟩
    refine ⟨f, hf, ?_⟩
    simp only [Bool.and_eq_true, beq_iff_eq, Bool.or_eq_true, Bool.not_eq_true',
      isDefaultValue, beq_eq_false_iff_ne]
    exact ⟨⟨h1.symm, h2⟩, by rw [h1]; exact h3⟩

/-- C1 (amended): for a record whose proto-changes bit is 1, the merge
loop copies a field's unmarshaled value into `lastIterated` iff the
field is message-typed or repeated and its value is not the proto
default (scalar non-repeated fields are skipped by the
`messageType == nil && !field.IsRepeated()` guard); afterwards every
field number in the clear bitset is cleared; fields neither copied nor
cleared retain their previous values. -/
theorem readProtoValues_merge_rule (knownFields : List ProtoFieldDesc)
    (fieldsSetToDefaultBit : Bool) (bitsetValues : List Nat) (m last : Nat → Nat)
    (k : Nat)
    (hok : isOkPass (readProtoValues knownFields true fieldsSetToDefaultBit
      bitsetValues m last) = true) :
    (k ∈ (if fieldsSetToDefaultBit then bitsetValues else []) →
      evalOk (readProtoValues knownFields true fieldsSetToDefaultBit bitsetValues
        m last) k = some 0) ∧
    (k ∉ (if fieldsSetToDefaultBit then bitsetValues else []) →
      ((∃ f ∈ knownFields, f.fieldNum = k
          ∧ (f.isMessage = true ∨ f.repeated = true) ∧ m k ≠ 0) →
        evalOk (readProtoValues knownFields true fieldsSetToDefaultBit bitsetValues
          m last) k = some (m k)) ∧
      (¬(∃ f ∈ knownFields, f.fieldNum = k
          ∧ (f.isMessage = true ∨ f.repeated = true) ∧ m k ≠ 0) →
        evalOk (readProtoValues knownFields true fieldsSetToDefaultBit bitsetValues
          m last) k = some (last k))) := by
  cases fieldsSetToDefaultBit with
  | false =>
    have hE : readProtoValues knownFields true false bitsetValues m last
        = .ok (mergeKnownFields knownFields m last) := rfl
    rw [hE]
    constructor
    · intro hmem
      simp at hmem
    · intro _
      constructor
      · intro hcopy
        simp only [evalOk, mergeKnownFields_apply m knownFields last k,
          if_pos ((any_copy_iff knownFields m k).mpr hcopy)]
      · intro hnone
        have hf : knownFields.any (fun f => k == f.fieldNum
            && (f.isMessage || f.repeated) && !isDefaultValue (m f.fieldNum))
            = false := by
          rcases hb : knownFields.any (fun f => k == f.fieldNum
              && (f.isMessage || f.repeated) && !isDefaultValue (m f.fieldNum)) with _ | _
          · rfl
          · exact absurd ((any_copy_iff knownFields m k).mp hb) hnone
        simp only [evalOk, mergeKnownFields_apply m knownFields last k, hf,
          Bool.false_eq_true, if_false]
  | true =>
    have hEq : readProtoValues knownFields true true bitsetValues m last
        = tryClearFields knownFields bitsetValues
            (mergeKnownFields knownFields m last) := rfl
    rw [hEq] at hok ⊢
    cases hE : tryClearFields knownFields bitsetValues
        (mergeKnownFields knownFields m last) with
    | error e =>
      rw [hE] at hok
      simp [isOkPass] at hok
    | ok r =>
      have hclr := tryClearFields_apply knownFields bitsetValues _ r hE
      constructor
      · intro hmem
        simp only [evalOk, hclr k, if_pos (by simpa using hmem)]
      · intro hmem
        have hnm : k ∉ bitsetValues := by simpa using hmem
        constructor
        · intro hcopy
          simp only [evalOk, hclr k, if_neg hnm,
            mergeKnownFields_apply m knownFields last k,
            if_pos ((any_copy_iff knownFields m k).mpr hcopy)]
        · intro hnone
          have hf : knownFields.any (fun f => k == f.fieldNum
              && (f.isMessage || f.repeated) && !isDefaultValue (m f.fieldNum))
              = false := by
            rcases hb : knownFields.any (fun f => k == f.fieldNum
                && (f.isMessage || f.repeated)
                && !isDefaultValue (m f.fieldNum)) with _ | _
            · rfl
            · exact absurd ((any_copy_iff knownFields m k).mp hb) hnone
          simp only [evalOk, hclr k, if_neg hnm,
            mergeKnownFields_apply m knownFields last k, hf,
            Bool.false_eq_true, if_false]

/-- Witness for C1: a message-typed field 1 with non-default value 4 is
copied, field 3 is cleared via the bitset. -/
theorem readProtoValues_merge_rule_witness :
    evalOk (readProtoValues [⟨1, true, false⟩, ⟨3, true, false⟩] true true [3]
      (fun _ => 4) (fun _ => 7)) 1 = some 4 :=
  ((readProtoValues_merge_rule [⟨1, true, false⟩, ⟨3, true, false⟩] true [3]
      (fun _ => 4) (fun _ => 7) 1 (by rfl)).2 (by decide)).1
    ⟨⟨1, true, false⟩, by simp, rfl, Or.inl rfl, by decide⟩

/-- C1 counterexample: a known scalar non-repeated field (field 1) whose
unmarshaled value 5 is not the proto default is NOT copied into
`lastIterated` — the merge loop skips fields with
`messageType == nil && !IsRepeated()` — so `lastIterated`'s field 1
stays 0, not the 5 the claim requires. -/
theorem readProtoValues_scalar_not_copied :
    evalOk (readProtoValues [⟨1, false, false⟩] true false [] (fun _ => 5)
      (fun _ => 0)) 1 = some 0 ∧
    evalOk (readProtoValues [⟨1, false, false⟩] true false [] (fun _ => 5)
      (fun _ => 0)) 1 ≠ some 5 := by
  constructor
  · rfl
  · intro h
    rw [show evalOk (readProtoValues [⟨1, false, false⟩] true false []
        (fun _ => 5) (fun _ => 0)) 1 = some 0 from rfl] at h
    simp at h

end M3Spec
